import Mathlib

/-!
Verification of the AAC-bot team-chess session core.

This file is a shallow embedding of the game-session orchestration engine of
the repository: the `ChessHandler` class of `src/chess_handler.py` (vote pool,
tally, tie check, popular-move application, game start/end, PGN reconstruction)
and the relevant command flow of the `TeamChess` cog in
`src/cogs/team_chess.py`.  The external rules engine (the `chess` library) is
modelled as an abstract record of operations on an opaque position type;
everything the Python code computes itself is translated function by function.
-/

namespace AACBot

/-- Python `str.lower()` as used on ASCII move text (e.g. `"Nf3".lower()`):
every character is lowercased independently. -/
def lower (s : String) : String := String.mk (s.data.map Char.toLower)

/-- Key deduplication performed implicitly by a Python dict comprehension:
iterating `for move in legal_moves` into a dict keeps one entry per distinct
key, positioned at its first occurrence (re-assignments of the same key write
the same value here, so first-occurrence order is what remains).  `seen` is
the set of keys already emitted. -/
def pydedupAux (seen : List String) : List String → List String
  | [] => []
  | x :: xs =>
      if x ∈ seen then pydedupAux seen xs
      else x :: pydedupAux (x :: seen) xs

/-- The distinct keys of the `vote_pool` dict comprehension, in
first-occurrence order. -/
def pydedup (l : List String) : List String := pydedupAux [] l

/-- The vote mapping `self.votes`: a Python dict from voter id to the raw
submitted move text, modelled as an association list in insertion order. -/
abbrev Votes := List (Nat × String)

/-- Python dict assignment `d[k] = v`: overwrites in place if the key exists
(keeping its position), otherwise appends a new entry. -/
def dictInsert (k : Nat) (v : String) (d : Votes) : Votes :=
  if d.any (fun p => p.1 == k) then
    d.map (fun p => if p.1 == k then (k, v) else p)
  else
    d ++ [(k, v)]

/-- `ChessHandler.vote_pool` (src/chess_handler.py:47-53): for every cached
legal move, the number of votes whose lowercased text equals the move's
lowercased text; zero-count moves are included.  The result is a dict keyed by
the legal moves, in their list order. -/
def vote_pool (legal_moves : List String) (votes : Votes) : List (String × Nat) :=
  (pydedup legal_moves).map
    (fun move => (move, (votes.filter (fun v => lower v.2 == lower move)).length))

/-- `max(self.vote_pool.values())`: the maximum vote count in the pool.
Python's `max` raises `ValueError` on an empty pool; callers below surface that
as `none`. -/
def maxVotes (pool : List (String × Nat)) : Nat :=
  (pool.map Prod.snd).foldl max 0

/-- `max(self.vote_pool, key=self.vote_pool.get)` (src/chess_handler.py:265):
the first key of the pool attaining the maximum count; `none` when the pool is
empty (Python raises `ValueError` there). -/
def most_voted (pool : List (String × Nat)) : Option String :=
  (pool.find? (fun p => p.2 == maxVotes pool)).map Prod.fst

/-- The abstract rules engine (the external `chess` library): builds a position
from a FEN string, lists the current legal moves in SAN, and pushes a SAN
move. -/
structure Engine (Pos : Type) where
  initBoard : String → Pos
  legalMovesOf : Pos → List String
  pushSan : Pos → String → Pos

/-- The mutable state of a `ChessHandler` instance (src/chess_handler.py:39-44),
minus the purely graphical constants. -/
structure Handler (Pos : Type) where
  board : Pos
  game_number : Nat
  legal_moves : List String
  votes : Votes
  playing : Bool
deriving Repr

/-- `ChessHandler.reset_legal_moves` (src/chess_handler.py:88-90). -/
def reset_legal_moves {Pos : Type} (E : Engine Pos) (h : Handler Pos) : Handler Pos :=
  { h with legal_moves := E.legalMovesOf h.board }

/-- `ChessHandler.reset_voting` (src/chess_handler.py:92-94). -/
def reset_voting {Pos : Type} (h : Handler Pos) : Handler Pos :=
  { h with votes := [] }

/-- `ChessHandler.try_add_vote` (src/chess_handler.py:247-259): reject (and
mutate nothing) unless the text matches some cached legal move
case-insensitively; otherwise store the raw text under the voter's id. -/
def try_add_vote {Pos : Type} (h : Handler Pos) (user_id : Nat) (move : String) :
    Bool × Handler Pos :=
  if h.legal_moves.any (fun legal_move => lower move == lower legal_move) then
    (true, { h with votes := dictInsert user_id move h.votes })
  else
    (false, h)

/-- `ChessHandler.play_popular_move` (src/chess_handler.py:261-267): push the
first pool key with the most votes, then clear the votes and refresh the legal
moves from the new position.  `none` models the `ValueError` Python's `max`
raises on an empty pool. -/
def play_popular_move {Pos : Type} (E : Engine Pos) (h : Handler Pos) :
    Option (Handler Pos) :=
  match most_voted (vote_pool h.legal_moves h.votes) with
  | none => none
  | some m =>
      let b := E.pushSan h.board m
      some { h with board := b, votes := [], legal_moves := E.legalMovesOf b }

/-- `ChessHandler.check_vote_tie` (src/chess_handler.py:269-274): a tie unless
exactly one pool entry attains the maximum count.  `none` models the
`ValueError` Python's `max` raises on an empty pool. -/
def check_vote_tie (legal_moves : List String) (votes : Votes) : Option Bool :=
  if (vote_pool legal_moves votes).isEmpty then none
  else some (decide (((vote_pool legal_moves votes).filter
    (fun p => p.2 == maxVotes (vote_pool legal_moves votes))).length ≠ 1))

/-- The default `fen` argument of `ChessHandler.start_game`. -/
def standardFen : String := "rnbqkbnr/pppppppp/8/8/8/8/PPPPPPPP/RNBQKBNR w KQkq - 0 1"

/-- `ChessHandler.start_game` (src/chess_handler.py:165-171): rebuild the
position from the FEN, refresh the legal moves, clear the votes, mark the
session active. -/
def start_game {Pos : Type} (E : Engine Pos) (h : Handler Pos)
    (game_number : Nat) (fen : String) : Handler Pos :=
  let b := E.initBoard fen
  { h with
      game_number := game_number
      board := b
      legal_moves := E.legalMovesOf b
      votes := []
      playing := true }

/-- `ChessHandler.end_game` (src/chess_handler.py:173-180): marks the session
over and maps empty team strings to `None` before producing the PGN via
`get_pgn`.  The first component is the handler state after the call (note that
neither `votes` nor `legal_moves` is touched); the second records the
`white_team` / `black_team` values handed to `get_pgn`. -/
def end_game {Pos : Type} (h : Handler Pos) (white_team black_team : String) :
    Handler Pos × (Option String × Option String) :=
  ({ h with playing := false },
   ((if white_team = "" then none else some white_team),
    (if black_team = "" then none else some black_team)))

/-- `ChessHandler.get_pgn`'s view of the rules-engine board: the starting
position specification plus the move stack (moves in the order they were
pushed). -/
structure BoardM where
  base : String
  stack : List String
deriving Repr, DecidableEq

/-- The first loop of `ChessHandler.get_pgn` (src/chess_handler.py:141-144):
`while self.board.move_stack: switchyard.append(self.board.pop())`.  The
resulting deque holds the moves last-played-first. -/
def switchyardOf (stack : List String) : List String :=
  if hne : stack = [] then []
  else stack.getLast hne :: switchyardOf stack.dropLast
termination_by stack.length
decreasing_by
  have hpos : 0 < stack.length := List.length_pos.mpr hne
  simp only [List.length_dropLast]
  omega

/-- The second loop of `ChessHandler.get_pgn` (src/chess_handler.py:150-154):
`while switchyard: move = switchyard.pop(); node = node.add_variation(move);
self.board.push(move)`.  `deque.pop` removes the rightmost element.  Returns
the board after the loop together with the moves written to the game record,
in the order they were recorded. -/
def replayMoves (sy : List String) (b : BoardM) : BoardM × List String :=
  if hne : sy = [] then (b, [])
  else
    let m := sy.getLast hne
    let r := replayMoves sy.dropLast { b with stack := b.stack ++ [m] }
    (r.1, m :: r.2)
termination_by sy.length
decreasing_by
  have hpos : 0 < sy.length := List.length_pos.mpr hne
  simp only [List.length_dropLast]
  omega

/-- The board manipulation performed by `ChessHandler.get_pgn`
(src/chess_handler.py:128-163): pop every move into a switchyard, then replay
it onto the emptied board while recording the moves.  The PGN headers and the
exporter text are out of scope; what matters for the session is the final
board and the recorded move order. -/
def get_pgn_board (b : BoardM) : BoardM × List String :=
  replayMoves (switchyardOf b.stack) { b with stack := [] }

/-- The outcome of the tie check plus popular-move selection performed by
`TeamChess.try_popular_move` (src/cogs/team_chess.py:90-114). -/
inductive Resolution where
  | Winner (m : String)
  | Tie (ms : List String)
deriving Repr, DecidableEq

/-- The pool keys attaining the maximum count, in pool order: the moves the
cog displays when `check_vote_tie` reports a tie
(src/cogs/team_chess.py:96-97). -/
def movesAtMax (legal_moves : List String) (votes : Votes) : List String :=
  ((vote_pool legal_moves votes).filter
    (fun p => p.2 == maxVotes (vote_pool legal_moves votes))).map Prod.fst

/-- `TeamChess.try_popular_move`'s resolution of a tally: if
`check_vote_tie()` reports a tie, the tied moves are displayed; otherwise
`play_popular_move()` plays the first pool key with the most votes.  `none`
models the `ValueError` on an empty pool. -/
def resolve (legal_moves : List String) (votes : Votes) : Option Resolution :=
  if (vote_pool legal_moves votes).isEmpty then none
  else if ((vote_pool legal_moves votes).filter
      (fun p => p.2 == maxVotes (vote_pool legal_moves votes))).length ≠ 1 then
    some (Resolution.Tie (movesAtMax legal_moves votes))
  else
    (most_voted (vote_pool legal_moves votes)).map Resolution.Winner

/-- `sum(tally().values())`: the total of the per-move counts. -/
def tally_total (legal_moves : List String) (votes : Votes) : Nat :=
  ((vote_pool legal_moves votes).map Prod.snd).sum

/-- `totalVotes()`: the number of entries in the vote pool (`len(self.votes)`,
src/cogs/team_chess.py:298). -/
def totalVotes (votes : Votes) : Nat := votes.length

/-- Python `str.isnumeric()` on the ASCII digit strings accepted by the cog. -/
def isnumericStr (s : String) : Bool := !s.isEmpty && s.data.all Char.isDigit

/-- Python `int(...)` on a string of ASCII digits. -/
def pyInt (s : String) : Nat :=
  s.data.foldl (fun n c => n * 10 + (c.toNat - 48)) 0

/-- The per-cog state of `TeamChess` (src/cogs/team_chess.py:16-33) relevant
to the session lifecycle, together with the `game_number` field of
`config/chess_config.json` as last written by `dump_config`. -/
structure CogState (Pos : Type) where
  channel_id : Nat
  game_number : Nat
  vote_minimum : Nat
  handler : Handler Pos
  persisted_game_number : Nat

/-- How the `/start_game` command reports back (src/cogs/team_chess.py:138-192). -/
inductive StartResult where
  | wrongChannel
  | alreadyActive
  | badVoteMinimum
  | ok
deriving Repr, DecidableEq

/-- The session-relevant control flow of the `/start_game` command
(src/cogs/team_chess.py:138-192): channel check, already-playing check,
numeric check on `vote_minimum`, then `ChessHandler.start_game(game_number)`
with the default FEN.  The admin check and the team-mixing branch only touch
chat-platform state and are external to the session core. -/
def cog_start_game {Pos : Type} (E : Engine Pos) (s : CogState Pos)
    (channel_id : Nat) (vote_minimum : String) : StartResult × CogState Pos :=
  if channel_id ≠ s.channel_id then (StartResult.wrongChannel, s)
  else if s.handler.playing then (StartResult.alreadyActive, s)
  else if !(isnumericStr vote_minimum) then (StartResult.badVoteMinimum, s)
  else
    (StartResult.ok,
     { s with
         vote_minimum := pyInt vote_minimum
         handler := start_game E s.handler s.game_number standardFen })

/-- One externally driven session operation after a game has started:
a `/vote` submission (`try_add_vote`) or a popular-move application
(`play_popular_move`; when the pool is empty the `ValueError` propagates and
the handler is left as it was). -/
inductive SessionOp where
  | vote (user_id : Nat) (move : String)
  | play
deriving Repr, DecidableEq

/-- Apply one `SessionOp` to the handler state. -/
def applyOp {Pos : Type} (E : Engine Pos) (h : Handler Pos) : SessionOp → Handler Pos
  | SessionOp.vote user_id move => (try_add_vote h user_id move).2
  | SessionOp.play =>
      match play_popular_move E h with
      | some h' => h'
      | none => h

/-- Run a sequence of session operations left to right. -/
def runOps {Pos : Type} (E : Engine Pos) (h : Handler Pos)
    (ops : List SessionOp) : Handler Pos :=
  ops.foldl (applyOp E) h

/-- The cached legal moves agree with a fresh rules-engine computation for the
current position. -/
def legalInvariant {Pos : Type} (E : Engine Pos) (h : Handler Pos) : Prop :=
  h.legal_moves = E.legalMovesOf h.board

/-! ### Generic list lemmas -/

theorem find?_eq_head?_filter {α : Type} (p : α → Bool) :
    ∀ l : List α, l.find? p = (l.filter p).head? := by
  intro l
  induction l with
  | nil => rfl
  | cons x xs ih =>
      by_cases hx : p x
      · rw [List.find?_cons_of_pos _ hx, List.filter_cons_of_pos hx, List.head?_cons]
      · rw [List.find?_cons_of_neg _ hx, List.filter_cons_of_neg hx, ih]

theorem length_filter_eq_sum {α : Type} (p : α → Bool) :
    ∀ l : List α, (l.filter p).length = (l.map (fun x => if p x then 1 else 0)).sum := by
  intro l
  induction l with
  | nil => rfl
  | cons x xs ih =>
      by_cases hx : p x
      · simp [List.filter_cons, hx, ih]; omega
      · simp only [Bool.not_eq_true] at hx
        simp [List.filter_cons, hx, ih]

theorem sum_map_add {α : Type} (f g : α → Nat) :
    ∀ l : List α, (l.map (fun x => f x + g x)).sum = (l.map f).sum + (l.map g).sum := by
  intro l
  induction l with
  | nil => rfl
  | cons x xs ih => simp [ih]; omega

theorem sum_map_const_zero {α : Type} :
    ∀ l : List α, (l.map (fun _ => (0 : Nat))).sum = 0 := by
  intro l
  induction l with
  | nil => rfl
  | cons x xs ih => simp [ih]

/-- Double counting: summing, over `as`, the number of `bs` related to each
`a` equals summing, over `bs`, the number of `as` related to each `b`. -/
theorem sum_count_comm {α β : Type} (P : α → β → Bool) (as : List α) (bs : List β) :
    (as.map (fun a => (bs.filter (fun b => P a b)).length)).sum =
    (bs.map (fun b => (as.filter (fun a => P a b)).length)).sum := by
  induction as with
  | nil => simp [sum_map_const_zero]
  | cons a as ih =>
      have hsplit : ∀ b : β, ((a :: as).filter (fun x => P x b)).length =
          (if P a b then 1 else 0) + (as.filter (fun x => P x b)).length := by
        intro b
        by_cases hb : P a b
        · simp [List.filter_cons, hb]; omega
        · simp only [Bool.not_eq_true] at hb
          simp [List.filter_cons, hb]
      calc ((a :: as).map (fun x => (bs.filter (fun b => P x b)).length)).sum
          = (bs.filter (fun b => P a b)).length +
            (as.map (fun x => (bs.filter (fun b => P x b)).length)).sum := by simp
        _ = (bs.map (fun b => if P a b then 1 else 0)).sum +
            (bs.map (fun b => (as.filter (fun x => P x b)).length)).sum := by
              rw [length_filter_eq_sum, ih]
        _ = (bs.map (fun b => (if P a b then 1 else 0) +
              (as.filter (fun x => P x b)).length)).sum := by rw [sum_map_add]
        _ = (bs.map (fun b => ((a :: as).filter (fun x => P x b)).length)).sum := by
              congr 1
              exact (List.map_congr_left fun b _ => (hsplit b).symm)

theorem sum_map_eq_length {α : Type} (f : α → Nat) :
    ∀ l : List α, (∀ x ∈ l, f x = 1) → (l.map f).sum = l.length := by
  intro l
  induction l with
  | nil => intro _; rfl
  | cons x xs ih =>
      intro hall
      have hx : f x = 1 := hall x (List.mem_cons_self x xs)
      have hxs : (xs.map f).sum = xs.length := ih fun y hy => hall y (List.mem_cons_of_mem x hy)
      simp [hx, hxs]
      omega

theorem foldl_max_choice :
    ∀ (l : List Nat) (acc : Nat), l.foldl max acc = acc ∨ l.foldl max acc ∈ l := by
  intro l
  induction l with
  | nil => intro acc; left; rfl
  | cons a l ih =>
      intro acc
      rcases ih (max acc a) with h | h
      · rw [List.foldl_cons, h]
        rcases max_choice acc a with h' | h'
        · left; exact h'
        · right; rw [h']; exact List.mem_cons_self a l
      · right
        rw [List.foldl_cons]
        exact List.mem_cons_of_mem a h

theorem le_foldl_max :
    ∀ (l : List Nat) (acc : Nat), acc ≤ l.foldl max acc ∧ ∀ x ∈ l, x ≤ l.foldl max acc := by
  intro l
  induction l with
  | nil => intro acc; exact ⟨Nat.le_refl acc, by simp⟩
  | cons a l ih =>
      intro acc
      have h := ih (max acc a)
      constructor
      · exact le_trans (le_max_left acc a) h.1
      · intro x hx
        rcases List.mem_cons.mp hx with rfl | hx
        · exact le_trans (le_max_right acc x) h.1
        · exact h.2 x hx

/-! ### Lemmas about the vote pool -/

theorem mem_of_mem_pydedupAux :
    ∀ (l seen : List String) (x : String), x ∈ pydedupAux seen l → x ∈ l := by
  intro l
  induction l with
  | nil => intro seen x hx; simp [pydedupAux] at hx
  | cons a l ih =>
      intro seen x hx
      simp only [pydedupAux] at hx
      by_cases ha : a ∈ seen
      · rw [if_pos ha] at hx
        exact List.mem_cons_of_mem a (ih seen x hx)
      · rw [if_neg ha] at hx
        rcases List.mem_cons.mp hx with rfl | hx
        · exact List.mem_cons_self x l
        · exact List.mem_cons_of_mem a (ih (a :: seen) x hx)

theorem mem_of_mem_pydedup {l : List String} {x : String}
    (hx : x ∈ pydedup l) : x ∈ l :=
  mem_of_mem_pydedupAux l [] x hx

theorem pydedup_ne_nil {l : List String} (h : l ≠ []) : pydedup l ≠ [] := by
  rcases List.exists_cons_of_ne_nil h with ⟨a, l', rfl⟩
  simp [pydedup, pydedupAux]

theorem vote_pool_ne_nil (legal_moves : List String) (votes : Votes)
    (h : legal_moves ≠ []) : vote_pool legal_moves votes ≠ [] := by
  unfold vote_pool
  simp only [ne_eq, List.map_eq_nil_iff]
  exact pydedup_ne_nil h

theorem maxVotes_attained (pool : List (String × Nat)) (h : pool ≠ []) :
    ∃ p ∈ pool, p.2 = maxVotes pool := by
  rcases foldl_max_choice (pool.map Prod.snd) 0 with h0 | hmem
  · rcases List.exists_cons_of_ne_nil h with ⟨p, ps, rfl⟩
    have hv : p.2 ∈ ((p :: ps).map Prod.snd) := List.mem_map_of_mem Prod.snd (List.mem_cons_self p ps)
    have hle : p.2 ≤ maxVotes (p :: ps) := (le_foldl_max _ 0).2 p.2 hv
    have hz : maxVotes (p :: ps) = 0 := h0
    exact ⟨p, List.mem_cons_self p ps, by omega⟩
  · rcases List.mem_map.mp hmem with ⟨p, hp, hpe⟩
    exact ⟨p, hp, hpe⟩

theorem most_voted_spec (pool : List (String × Nat)) (h : pool ≠ []) :
    ∃ q, pool.find? (fun p => p.2 == maxVotes pool) = some q ∧
      most_voted pool = some q.1 ∧ q ∈ pool ∧ q.2 = maxVotes pool := by
  obtain ⟨p, hp, hpv⟩ := maxVotes_attained pool h
  have hsome : (pool.find? (fun p => p.2 == maxVotes pool)).isSome :=
    List.find?_isSome.mpr ⟨p, hp, by simp [hpv]⟩
  obtain ⟨q, hq⟩ := Option.isSome_iff_exists.mp hsome
  refine ⟨q, hq, ?_, List.mem_of_find?_eq_some hq, ?_⟩
  · unfold most_voted
    rw [hq, Option.map_some']
  · have hbeq := List.find?_some hq
    simp only [beq_iff_eq] at hbeq
    exact hbeq

/-! ### Lemmas about dict assignment -/

theorem dictInsert_mem_key (k : Nat) (v : String) (d : Votes) :
    (dictInsert k v d).any (fun p => p.1 == k) = true := by
  unfold dictInsert
  by_cases hk : d.any (fun p => p.1 == k) = true
  · rw [if_pos hk]
    rcases List.any_eq_true.mp hk with ⟨p, hp, hpk⟩
    refine List.any_eq_true.mpr ⟨(k, v), List.mem_map.mpr ⟨p, hp, ?_⟩, by simp⟩
    simp only [hpk, if_true]
  · rw [if_neg hk]
    exact List.any_eq_true.mpr ⟨(k, v), by simp, by simp⟩

theorem dictInsert_length_of_mem (k : Nat) (v : String) (d : Votes)
    (hk : d.any (fun p => p.1 == k) = true) :
    (dictInsert k v d).length = d.length := by
  unfold dictInsert
  rw [if_pos hk, List.length_map]

theorem dictInsert_keys (k : Nat) (v : String) (d : Votes) :
    (dictInsert k v d).map Prod.fst =
      if d.any (fun p => p.1 == k) then d.map Prod.fst
      else d.map Prod.fst ++ [k] := by
  unfold dictInsert
  by_cases hk : d.any (fun p => p.1 == k) = true
  · rw [if_pos hk, if_pos hk, List.map_map]
    refine List.map_congr_left ?_
    intro p _
    by_cases hpk : (p.1 == k) = true
    · have hp1 : p.1 = k := by simpa using hpk
      simp [Function.comp, hpk, hp1]
    · simp [Function.comp, hpk]
  · rw [if_neg hk, if_neg hk, List.map_append, List.map_cons, List.map_nil]

theorem dictInsert_keys_nodup (k : Nat) (v : String) (d : Votes)
    (hnd : (d.map Prod.fst).Nodup) :
    ((dictInsert k v d).map Prod.fst).Nodup := by
  rw [dictInsert_keys]
  by_cases hk : d.any (fun p => p.1 == k) = true
  · rw [if_pos hk]; exact hnd
  · rw [if_neg hk]
    have hknot : k ∉ d.map Prod.fst := by
      intro hmem
      rcases List.mem_map.mp hmem with ⟨p, hp, hpk⟩
      exact hk (List.any_eq_true.mpr ⟨p, hp, by simp [hpk]⟩)
    rw [List.nodup_append]
    exact ⟨hnd, List.nodup_singleton k, by
      intro a ha hb
      rw [List.mem_singleton] at hb
      exact hknot (hb ▸ ha)⟩

theorem filter_key_map_update (k : Nat) (v : String) :
    ∀ d : Votes, (d.map Prod.fst).Nodup → d.any (fun p => p.1 == k) = true →
      (d.map (fun p => if p.1 == k then (k, v) else p)).filter
        (fun p => p.1 == k) = [(k, v)] := by
  intro d
  induction d with
  | nil => intro _ hk; simp at hk
  | cons p d ih =>
      intro hnd hk
      rw [List.map_cons] at hnd
      have hnd' := List.nodup_cons.mp hnd
      by_cases hpk : (p.1 == k) = true
      · have hp1 : p.1 = k := by simpa using hpk
        rw [List.map_cons]
        simp only [hpk, if_true]
        rw [List.filter_cons_of_pos (by simp)]
        have hrest : (d.map (fun p => if p.1 == k then (k, v) else p)).filter
            (fun p => p.1 == k) = [] := by
          rw [List.filter_eq_nil_iff]
          intro q hq
          rcases List.mem_map.mp hq with ⟨p', hp', rfl⟩
          have hp'k : p'.1 ≠ k := by
            intro hc
            have hmem : p'.1 ∈ d.map Prod.fst := List.mem_map_of_mem Prod.fst hp'
            rw [hc, ← hp1] at hmem
            exact hnd'.1 hmem
          simp [hp'k]
        rw [hrest]
      · rw [List.map_cons]
        simp only [hpk, if_false]
        rw [List.filter_cons_of_neg (by simp [hpk])]
        have hk' : d.any (fun p => p.1 == k) = true := by
          rcases List.any_eq_true.mp hk with ⟨q, hq, hqk⟩
          rcases List.mem_cons.mp hq with rfl | hq
          · exact absurd hqk hpk
          · exact List.any_eq_true.mpr ⟨q, hq, hqk⟩
        exact ih hnd'.2 hk'

theorem dictInsert_filter_key (k : Nat) (v : String) (d : Votes)
    (hnd : (d.map Prod.fst).Nodup) :
    (dictInsert k v d).filter (fun p => p.1 == k) = [(k, v)] := by
  unfold dictInsert
  by_cases hk : d.any (fun p => p.1 == k) = true
  · rw [if_pos hk]
    exact filter_key_map_update k v d hnd hk
  · rw [if_neg hk, List.filter_append]
    have h1 : d.filter (fun p => p.1 == k) = [] := by
      rw [List.filter_eq_nil_iff]
      intro p hp hpk
      exact hk (List.any_eq_true.mpr ⟨p, hp, hpk⟩)
    rw [h1]
    simp

/-! ### Lemmas about the PGN switchyard -/

theorem switchyardOf_eq_reverse : ∀ s : List String, switchyardOf s = s.reverse := by
  intro s
  induction s using List.reverseRecOn with
  | nil => rw [switchyardOf]; simp
  | append_singleton ys m ih =>
      rw [switchyardOf]
      have hne : ys ++ [m] ≠ [] := by simp
      rw [dif_neg hne]
      rw [List.getLast_concat, List.dropLast_concat, ih]
      simp

theorem replayMoves_spec :
    ∀ (sy : List String) (b : BoardM),
      replayMoves sy b = ({ b with stack := b.stack ++ sy.reverse }, sy.reverse) := by
  intro sy
  induction sy using List.reverseRecOn with
  | nil =>
      intro b
      rw [replayMoves]
      simp
  | append_singleton ys m ih =>
      intro b
      rw [replayMoves]
      have hne : ys ++ [m] ≠ [] := by simp
      rw [dif_neg hne]
      simp only [List.getLast_concat, List.dropLast_concat, ih]
      simp

/-! ### Handler-level invariance lemmas -/

theorem applyOp_preserves_legalInvariant {Pos : Type} (E : Engine Pos)
    (h : Handler Pos) (op : SessionOp) (hinv : legalInvariant E h) :
    legalInvariant E (applyOp E h op) := by
  cases op with
  | vote user_id move =>
      simp only [applyOp, try_add_vote]
      split
      · exact hinv
      · exact hinv
  | play =>
      simp only [applyOp]
      split
      next h' heq =>
        unfold play_popular_move at heq
        revert heq
        cases hmv : most_voted (vote_pool h.legal_moves h.votes) with
        | none => intro heq; cases heq
        | some m =>
            intro heq
            cases heq
            rfl
      next heq => exact hinv

/-! ### Witness fixtures (concrete engines and states) -/

/-- A degenerate engine over the one-point position type, for witnesses that
do not depend on the engine's answers. -/
def unitEngine : Engine Unit :=
  { initBoard := fun _ => ()
    legalMovesOf := fun _ => []
    pushSan := fun _ _ => () }

/-- An engine whose positions are move-history lists: pushing a SAN move
appends it; the starting position has the two replies used in the witnesses. -/
def listEngine : Engine (List String) :=
  { initBoard := fun _ => []
    legalMovesOf := fun b => if b = [] then ["Nf3", "e4"] else ["e5"]
    pushSan := fun b m => b ++ [m] }

/-- An active handler with two cached legal moves and an empty pool. -/
def handlerA : Handler Unit :=
  { board := ()
    game_number := 1
    legal_moves := ["e4", "Nf3"]
    votes := []
    playing := true }

/-- An active handler with one vote already in the pool. -/
def handlerB : Handler Unit :=
  { board := ()
    game_number := 1
    legal_moves := ["e4", "Nf3"]
    votes := [(1, "e4")]
    playing := true }

/-- An active handler with no cached legal moves. -/
def handlerEmpty : Handler Unit :=
  { board := ()
    game_number := 1
    legal_moves := []
    votes := []
    playing := true }

/-- A handler over the history-list engine: fresh position, canonical legal
moves, one vote submitted with non-canonical casing. -/
def handlerC : Handler (List String) :=
  { board := []
    game_number := 2
    legal_moves := ["Nf3", "e4"]
    votes := [(7, "nf3")]
    playing := true }

/-- A cog state whose handler is mid-game. -/
def cogActive : CogState Unit :=
  { channel_id := 42
    game_number := 3
    vote_minimum := 2
    handler := handlerB
    persisted_game_number := 3 }

/-! ### Claim theorems -/

/-- C3: whenever `moveText` is not case-insensitively equal to any element of
the cached legal moves, `try_add_vote` returns `False` (the `Rejected` result)
and returns the session state unchanged: the vote pool and every other field
are exactly as before. -/
theorem C3_reject_no_mutation {Pos : Type} (h : Handler Pos) (user_id : Nat)
    (move : String) (hno : ∀ lm ∈ h.legal_moves, lower move ≠ lower lm) :
    try_add_vote h user_id move = (false, h) := by
  unfold try_add_vote
  have hfalse : h.legal_moves.any
      (fun legal_move => lower move == lower legal_move) = false :=
    List.any_eq_false.mpr (fun lm hlm => by simp [hno lm hlm])
  simp [hfalse]

/-- C3 witness: `"zz"` matches no legal move of `handlerB`, and submitting it
is rejected without mutation. -/
theorem C3_witness :
    (∀ lm ∈ handlerB.legal_moves, lower "zz" ≠ lower lm) ∧
    try_add_vote handlerB 5 "zz" = (false, handlerB) :=
  ⟨by decide, C3_reject_no_mutation handlerB 5 "zz" (by decide)⟩

/-- C8: two successive accepted votes by the same voter leave exactly one pool
entry for that voter, holding the second move's raw text, and the second vote
does not grow the pool. -/
theorem C8_last_vote_wins {Pos : Type} (h : Handler Pos) (v : Nat)
    (m1 m2 : String) (hnd : (h.votes.map Prod.fst).Nodup)
    (h1 : ∃ lm ∈ h.legal_moves, lower m1 = lower lm)
    (h2 : ∃ lm ∈ h.legal_moves, lower m2 = lower lm) :
    (try_add_vote h v m1).1 = true ∧
    (try_add_vote (try_add_vote h v m1).2 v m2).1 = true ∧
    (try_add_vote (try_add_vote h v m1).2 v m2).2.votes.filter
      (fun p => p.1 == v) = [(v, m2)] ∧
    (try_add_vote (try_add_vote h v m1).2 v m2).2.votes.length
      = (try_add_vote h v m1).2.votes.length := by
  obtain ⟨lm1, hlm1, he1⟩ := h1
  obtain ⟨lm2, hlm2, he2⟩ := h2
  have hc1 : h.legal_moves.any
      (fun legal_move => lower m1 == lower legal_move) = true :=
    List.any_eq_true.mpr ⟨lm1, hlm1, by simp [he1]⟩
  have hc2 : h.legal_moves.any
      (fun legal_move => lower m2 == lower legal_move) = true :=
    List.any_eq_true.mpr ⟨lm2, hlm2, by simp [he2]⟩
  have e1 : try_add_vote h v m1 =
      (true, { h with votes := dictInsert v m1 h.votes }) := by
    unfold try_add_vote
    rw [if_pos hc1]
  have e2 : try_add_vote { h with votes := dictInsert v m1 h.votes } v m2 =
      (true, { h with votes := dictInsert v m2 (dictInsert v m1 h.votes) }) := by
    unfold try_add_vote
    rw [if_pos hc2]
  rw [e1]
  simp only [e2]
  refine ⟨trivial, trivial, ?_, ?_⟩
  · exact dictInsert_filter_key v m2 (dictInsert v m1 h.votes)
      (dictInsert_keys_nodup v m1 h.votes hnd)
  · exact dictInsert_length_of_mem v m2 (dictInsert v m1 h.votes)
      (dictInsert_mem_key v m1 h.votes)

/-- C8 witness: voter 7 votes `"e4"` then `"nF3"` (both legal up to case) on
`handlerA`; the pool ends with the single entry `(7, "nF3")`. -/
theorem C8_witness :
    ((handlerA.votes.map Prod.fst).Nodup ∧
     (∃ lm ∈ handlerA.legal_moves, lower "e4" = lower lm) ∧
     (∃ lm ∈ handlerA.legal_moves, lower "nF3" = lower lm)) ∧
    (try_add_vote (try_add_vote handlerA 7 "e4").2 7 "nF3").2.votes.filter
      (fun p => p.1 == 7) = [(7, "nF3")] :=
  ⟨⟨by decide, by decide, by decide⟩,
   (C8_last_vote_wins handlerA 7 "e4" "nF3" (by decide) (by decide)
      (by decide)).2.2.1⟩

/-- C5: reconstructing the game record leaves the live board observably
unchanged: the final board equals the initial board (hence so do the move
count and any legal-move computation on it), and the recorded moves are the
move stack in original order. -/
theorem C5_get_pgn_preserves_board (b : BoardM) (E : Engine BoardM) :
    (get_pgn_board b).1 = b ∧
    (get_pgn_board b).1.stack.length = b.stack.length ∧
    E.legalMovesOf (get_pgn_board b).1 = E.legalMovesOf b ∧
    (get_pgn_board b).2 = b.stack := by
  have h1 : get_pgn_board b = (b, b.stack) := by
    unfold get_pgn_board
    rw [switchyardOf_eq_reverse, replayMoves_spec]
    simp
  refine ⟨?_, ?_, ?_, ?_⟩ <;> rw [h1]

/-- C4: after a session start followed by any sequence of vote submissions and
popular-move applications, the cached legal moves equal the rules engine's
fresh computation for the current position. -/
theorem C4_no_stale_legal_moves {Pos : Type} (E : Engine Pos)
    (h0 : Handler Pos) (game_number : Nat) (fen : String)
    (ops : List SessionOp) :
    (runOps E (start_game E h0 game_number fen) ops).legal_moves
      = E.legalMovesOf (runOps E (start_game E h0 game_number fen) ops).board := by
  have hstart : legalInvariant E (start_game E h0 game_number fen) := rfl
  suffices hgen : ∀ h : Handler Pos, legalInvariant E h →
      legalInvariant E (runOps E h ops) from hgen _ hstart
  induction ops with
  | nil => intro h hh; exact hh
  | cons op ops ih =>
      intro h hh
      exact ih _ (applyOp_preserves_legalInvariant E h op hh)

/-- C6: starting a game while one is already in session reports the
already-active failure and leaves the whole cog state — handler position,
legal moves, vote pool, game number, active flag, vote minimum, persisted
config — untouched. -/
theorem C6_start_while_active {Pos : Type} (E : Engine Pos) (s : CogState Pos)
    (vote_minimum : String) (hplay : s.handler.playing = true) :
    cog_start_game E s s.channel_id vote_minimum = (StartResult.alreadyActive, s) := by
  unfold cog_start_game
  rw [if_neg (fun hc => hc rfl), if_pos hplay]

/-- C6 witness: `cogActive` is mid-game; a second `/start_game` in the right
channel changes nothing. -/
theorem C6_witness :
    cogActive.handler.playing = true ∧
    cog_start_game unitEngine cogActive cogActive.channel_id "2"
      = (StartResult.alreadyActive, cogActive) :=
  ⟨rfl, C6_start_while_active unitEngine cogActive "2" rfl⟩

/-- C1 counterexample: with exactly one legal move and an empty pool every
count is zero, yet the code resolves to a `Winner` — the claim (and spec §4.3)
demand a `Tie` whenever the maximum is not greater than zero. -/
theorem C1_counterexample :
    resolve ["e4"] [] = some (Resolution.Winner "e4") ∧
    maxVotes (vote_pool ["e4"] []) = 0 := by decide

/-- C1 (amended): over a non-empty legal-move list, `resolve` returns
`Winner m` exactly when `m` is the single move attaining the maximum count —
whether or not that maximum is positive — and otherwise returns `Tie` of
precisely the moves at the maximum. -/
theorem C1_resolve_characterization (legal_moves : List String) (votes : Votes)
    (hne : legal_moves ≠ []) :
    (∀ m, resolve legal_moves votes = some (Resolution.Winner m) ↔
        movesAtMax legal_moves votes = [m]) ∧
    (∀ ms, resolve legal_moves votes = some (Resolution.Tie ms) ↔
        (ms = movesAtMax legal_moves votes ∧ ms.length ≠ 1)) := by
  have hpool : vote_pool legal_moves votes ≠ [] := vote_pool_ne_nil _ _ hne
  have hie : (vote_pool legal_moves votes).isEmpty = false :=
    List.isEmpty_eq_false.mpr hpool
  by_cases hone : ((vote_pool legal_moves votes).filter
      (fun p => p.2 == maxVotes (vote_pool legal_moves votes))).length = 1
  · obtain ⟨q, hq⟩ := List.length_eq_one.mp hone
    have hfind : (vote_pool legal_moves votes).find?
        (fun p => p.2 == maxVotes (vote_pool legal_moves votes)) = some q := by
      rw [find?_eq_head?_filter, hq]
      rfl
    have hres : resolve legal_moves votes = some (Resolution.Winner q.1) := by
      unfold resolve most_voted
      rw [if_neg (by simp [hie]), if_neg (fun hc => hc hone), hfind,
        Option.map_some', Option.map_some']
    have hatmax : movesAtMax legal_moves votes = [q.1] := by
      unfold movesAtMax
      rw [hq]
      rfl
    constructor
    · intro m
      rw [hres, hatmax]
      constructor
      · intro hw
        simp only [Option.some.injEq, Resolution.Winner.injEq] at hw
        rw [hw]
      · intro hm
        simp only [List.cons.injEq, and_true] at hm
        rw [hm]
    · intro ms
      rw [hres, hatmax]
      constructor
      · intro ht
        simp at ht
      · rintro ⟨rfl, hlen⟩
        simp at hlen
  · have hres : resolve legal_moves votes =
        some (Resolution.Tie (movesAtMax legal_moves votes)) := by
      unfold resolve
      rw [if_neg (by simp [hie]), if_pos hone]
    have hlenF : (movesAtMax legal_moves votes).length ≠ 1 := by
      unfold movesAtMax
      rw [List.length_map]
      exact hone
    constructor
    · intro m
      rw [hres]
      constructor
      · intro hw
        simp at hw
      · intro hm
        exact absurd (by rw [hm]; rfl) hlenF
    · intro ms
      rw [hres]
      constructor
      · intro ht
        simp only [Option.some.injEq, Resolution.Tie.injEq] at ht
        refine ⟨ht.symm, ?_⟩
        rw [← ht]
        exact hlenF
      · rintro ⟨rfl, _⟩
        rfl

/-- C1 witness: the spec's own tie example — legal moves
`["e4", "Nf3", "d4"]` and votes `{A: "e4", B: "Nf3"}` — resolves to
`Tie(["e4", "Nf3"])`, via the amended characterization. -/
theorem C1_witness :
    resolve ["e4", "Nf3", "d4"] [(1, "e4"), (2, "Nf3")]
      = some (Resolution.Tie ["e4", "Nf3"]) :=
  (((C1_resolve_characterization ["e4", "Nf3", "d4"] [(1, "e4"), (2, "Nf3")]
      (by decide)).2) ["e4", "Nf3"]).mpr (by decide)

/-- C2 counterexample: two legal moves that differ only in case — `"bxc3"`
(pawn capture) and `"Bxc3"` (bishop capture), which can be simultaneously
legal — make one vote count towards both tally entries: the tally sums to 2
while the pool has a single entry. -/
theorem C2_counterexample :
    tally_total ["bxc3", "Bxc3"] [(1, "bxc3")] = 2 ∧
    totalVotes [(1, "bxc3")] = 1 := by decide

/-- C2 (amended): the tally counts each pool entry once per legal move whose
lowercased text matches it; whenever every pool entry matches exactly one
distinct legal move — in particular whenever the legal moves have pairwise
distinct lowercasings and every vote matches some legal move — the counts sum
to the pool size. -/
theorem C2_tally_total (legal_moves : List String) (votes : Votes)
    (hu : ∀ v ∈ votes, ((pydedup legal_moves).filter
        (fun m => lower v.2 == lower m)).length = 1) :
    tally_total legal_moves votes = totalVotes votes := by
  unfold tally_total totalVotes vote_pool
  rw [List.map_map]
  have hcomp : (Prod.snd ∘ fun move => (move,
      (votes.filter (fun v => lower v.2 == lower move)).length)) =
      fun move => (votes.filter (fun v => lower v.2 == lower move)).length := rfl
  rw [hcomp,
    sum_count_comm (fun move v => lower v.2 == lower move) (pydedup legal_moves) votes]
  exact sum_map_eq_length _ votes hu

/-- C2 witness: with legal moves `["e4", "Nf3"]` and votes
`{1: "e4", 2: "nf3", 3: "e4"}`, each vote matches exactly one legal move and
the tally totals the pool size, 3. -/
theorem C2_witness :
    (∀ v ∈ ([(1, "e4"), (2, "nf3"), (3, "e4")] : Votes),
      ((pydedup ["e4", "Nf3"]).filter (fun m => lower v.2 == lower m)).length = 1) ∧
    tally_total ["e4", "Nf3"] [(1, "e4"), (2, "nf3"), (3, "e4")]
      = totalVotes [(1, "e4"), (2, "nf3"), (3, "e4")] :=
  ⟨by decide, C2_tally_total ["e4", "Nf3"] [(1, "e4"), (2, "nf3"), (3, "e4")]
    (by decide)⟩

/-- The bookkeeping `TeamChess.end_game` performs after the
`ChessHandler.end_game()` call (src/cogs/team_chess.py:80-83): `dump_config()`
writes the *current* `game_number` to the config file, and only afterwards is
`self.game_number` incremented — so the persisted round number is the
pre-increment value. -/
def cog_end_accounting {Pos : Type} (s : CogState Pos) : CogState Pos :=
  { s with
      persisted_game_number := s.game_number
      game_number := s.game_number + 1 }

/-- C7: what the end-game code actually does, evaluated at an active session
with one vote and game number 3: `ChessHandler.end_game` (called with the two
team arguments its signature requires — the cog actually calls it with none
and raises `TypeError`) flips `playing` but does not clear the vote pool, and
the cog persists the pre-increment game number (3) while the in-memory round
becomes 4. -/
theorem C7_end_game_code_behavior :
    (end_game handlerB "Team A" "Team B").1.playing = false ∧
    (end_game handlerB "Team A" "Team B").1.votes = [(1, "e4")] ∧
    (cog_end_accounting cogActive).persisted_game_number = 3 ∧
    (cog_end_accounting cogActive).game_number = 4 := by decide

/-- C9: whenever the cached legal moves are non-empty, the move text
`play_popular_move` hands to the rules engine is a key of the tally, hence an
exact element of the cached `legal_moves` in canonical casing (never a voter's
raw text); if additionally the cache matches the engine's legal moves for the
current position, the pushed move is legal there. -/
theorem C9_played_move_is_cached {Pos : Type} (E : Engine Pos) (h : Handler Pos)
    (hne : h.legal_moves ≠ []) :
    ∃ m, most_voted (vote_pool h.legal_moves h.votes) = some m ∧
      m ∈ h.legal_moves ∧
      play_popular_move E h = some
        { h with
            board := E.pushSan h.board m
            votes := []
            legal_moves := E.legalMovesOf (E.pushSan h.board m) } ∧
      (h.legal_moves = E.legalMovesOf h.board → m ∈ E.legalMovesOf h.board) := by
  obtain ⟨q, hfind, hmv, hqmem, hqv⟩ :=
    most_voted_spec _ (vote_pool_ne_nil h.legal_moves h.votes hne)
  have hmem : q.1 ∈ h.legal_moves := by
    rcases List.mem_map.mp hqmem with ⟨mv, hmvmem, hmveq⟩
    have hq1 : q.1 = mv := by rw [← hmveq]
    rw [hq1]
    exact mem_of_mem_pydedup hmvmem
  refine ⟨q.1, hmv, hmem, ?_, ?_⟩
  · unfold play_popular_move
    rw [hmv]
  · intro hinv
    rw [← hinv]
    exact hmem

/-- C9 witness: on `handlerC` the only vote is the non-canonical `"nf3"`, yet
the selected move is the cached, canonically cased `"Nf3"`, which is legal for
the engine's starting position. -/
theorem C9_witness :
    handlerC.legal_moves ≠ [] ∧
    (∃ m, most_voted (vote_pool handlerC.legal_moves handlerC.votes) = some m ∧
      m ∈ handlerC.legal_moves ∧
      play_popular_move listEngine handlerC = some
        { handlerC with
            board := listEngine.pushSan handlerC.board m
            votes := []
            legal_moves := listEngine.legalMovesOf
              (listEngine.pushSan handlerC.board m) } ∧
      (handlerC.legal_moves = listEngine.legalMovesOf handlerC.board →
        m ∈ listEngine.legalMovesOf handlerC.board)) :=
  ⟨by decide, C9_played_move_is_cached listEngine handlerC (by decide)⟩

/-- C10: with no legal moves the pool is empty, so both the tie check and the
popular-move application hit Python's `max` on an empty collection and raise
instead of returning (modelled as `none`); with at least one legal move both
always return. -/
theorem C10_empty_pool_partiality {Pos : Type} (E : Engine Pos) (h : Handler Pos) :
    (h.legal_moves = [] →
        check_vote_tie h.legal_moves h.votes = none ∧
        play_popular_move E h = none) ∧
    (h.legal_moves ≠ [] →
        (∃ b, check_vote_tie h.legal_moves h.votes = some b) ∧
        (∃ h', play_popular_move E h = some h')) := by
  constructor
  · intro hempty
    constructor
    · rw [hempty]
      rfl
    · unfold play_popular_move
      rw [hempty]
      rfl
  · intro hne
    have hpool : vote_pool h.legal_moves h.votes ≠ [] :=
      vote_pool_ne_nil _ _ hne
    have hie : (vote_pool h.legal_moves h.votes).isEmpty = false :=
      List.isEmpty_eq_false.mpr hpool
    constructor
    · unfold check_vote_tie
      rw [if_neg (by simp [hie])]
      exact ⟨_, rfl⟩
    · obtain ⟨q, hfind, hmv, hqmem, hqv⟩ := most_voted_spec _ hpool
      unfold play_popular_move
      rw [hmv]
      exact ⟨_, rfl⟩

/-- C10 witness: on `handlerEmpty` (no legal moves) both operations model the
raised `ValueError`; on `handlerA` (two legal moves, empty pool) both return. -/
theorem C10_witness :
    (check_vote_tie handlerEmpty.legal_moves handlerEmpty.votes = none ∧
      play_popular_move unitEngine handlerEmpty = none) ∧
    ((∃ b, check_vote_tie handlerA.legal_moves handlerA.votes = some b) ∧
      (∃ h', play_popular_move unitEngine handlerA = some h')) :=
  ⟨(C10_empty_pool_partiality unitEngine handlerEmpty).1 rfl,
   (C10_empty_pool_partiality unitEngine handlerA).2 (by decide)⟩
